import Mathlib

/-
Verification of the CRFS-style FUSE filesystem layer of this repository
(whiteout and opaque-directory merge logic, lazy inode allocation, chunked
file reads with a one-slot cache).  The Go source is shallowly embedded:
pure helpers become Lean functions, mutation of the per-node child cache,
of the lazy inode slots and of the per-handle chunk cache becomes explicit
state passing, and machine integers are modeled as Nat with an explicit
modulus where overflow matters.  Pointer-derived identifiers (the source
uses the address of a table-of-contents entry as its inode number) are
modeled by giving every allocated entry a numeric allocation id, with fresh
allocations receiving fresh ids.
-/

set_option maxHeartbeats 1000000

/-! ## Reserved names (constants of the source) -/

/-- whiteoutPrefix in the source: filename marker for a whiteout file. -/
def whPre : String := ".wh."

/-- whiteoutOpaqueDir in the source: the opaque-whiteout marker name. -/
def whOpqDir : String := whPre ++ whPre ++ ".opq"

/-- opaqueXattr in the source: the overlayfs opaque xattr key. -/
def opqXattr : String := "trusted.overlay.opaque"

/-- opaqueXattrValue in the source, as bytes: the string y. -/
def opqXattrVal : List Nat := [121]

/-- Byte view of an (ASCII) string, one Nat per character.  Attribute names
in the source are ASCII, where UTF-8 bytes and characters coincide. -/
def strBytes (s : String) : List Nat := s.data.map Char.toNat

/-- Models strings.HasPrefix(s, whiteoutPrefix) from the Go source. -/
def hasWhPre (s : String) : Bool := s.data.take 4 == whPre.data

/-- Models the byte slicing w[len(whiteoutPrefix):] from the Go source. -/
def stripWh (s : String) : String := String.mk (s.data.drop 4)

/-- Models fmt.Sprintf with the whiteout prefix and a name appended. -/
def whAdd (s : String) : String := String.mk (whPre.data ++ s.data)

/-! ## Table-of-contents entries (stargz.TOCEntry)

The archive reader is an external collaborator; per its interface a TOC
entry carries a name type, an xattr map and a child map.  The id field
models the Go pointer identity of the entry (inodeOfEnt takes the address
of the entry); distinct allocated entries have distinct ids. -/

inductive TOCEntry : Type where
  | mk (eid : Nat) (typ : String) (xattrs : List (String × List Nat))
      (children : List (String × TOCEntry)) : TOCEntry

def TOCEntry.eid : TOCEntry → Nat
  | .mk i _ _ _ => i

def TOCEntry.typ : TOCEntry → String
  | .mk _ t _ _ => t

def TOCEntry.xattrs : TOCEntry → List (String × List Nat)
  | .mk _ _ x _ => x

def TOCEntry.children : TOCEntry → List (String × TOCEntry)
  | .mk _ _ _ c => c

/-- Association-list lookup, modeling a Go map read keyed by string. -/
def lookupAssoc {α : Type} : List (String × α) → String → Option α
  | [], _ => none
  | p :: ps, k => if p.1 = k then some p.2 else lookupAssoc ps k

/-- Entry.LookupChild from the archive reader interface. -/
def TOCEntry.lookupChild (e : TOCEntry) (name : String) : Option TOCEntry :=
  lookupAssoc e.children name

/-- A Go map has no duplicate keys; the association lists standing in for
child maps satisfy this. -/
def keysNodup {α : Type} (l : List (String × α)) : Prop :=
  (l.map Prod.fst).Nodup

/-- inodeOfEnt from the source: the inode of a TOC entry is its pointer,
modeled here by the allocation id. -/
def inodeOfEnt (e : TOCEntry) : Nat := e.eid

/-! ## Directory entries (fuse.Dirent) and the merge engine -/

inductive DT : Type where
  | dir | file | link | block | char | fifo | unknown
  deriving DecidableEq, Repr

/-- direntType from the source: maps the archive type string to a FUSE
directory-entry type. -/
def direntType (e : TOCEntry) : DT :=
  if e.typ = "dir" then .dir
  else if e.typ = "reg" then .file
  else if e.typ = "symlink" then .link
  else if e.typ = "block" then .block
  else if e.typ = "char" then .char
  else if e.typ = "fifo" then .fifo
  else .unknown

structure Dirent where
  ino : Nat
  dt : DT
  name : String
  deriving DecidableEq, Repr

/-- The final sort of the listing in the source (sort.Slice comparing
names; lexicographic on the character lists, matching the Go byte-wise
comparison on the ASCII names involved here, and the claims settled below
are in any case insensitive to the order chosen). -/
def sortEnts (l : List Dirent) : List Dirent :=
  List.insertionSort (fun a b : Dirent => a.name.data ≤ b.name.data) l

/-- The children the ReadDirAll pass emits directly (no whiteout prefix);
the pass records every other child except the opaque marker for whiteout
synthesis. -/
def rdNormals (te : TOCEntry) : List (String × TOCEntry) :=
  te.children.filter (fun p => !(hasWhPre p.1))

/-- The whiteout children recorded by the ReadDirAll pass: whiteout
prefixed and not the opaque marker. -/
def rdWhs (te : TOCEntry) : List (String × TOCEntry) :=
  te.children.filter (fun p => hasWhPre p.1 && !(p.1 == whOpqDir))

/-- The normalEnts name set of the source. -/
def rdNormalNames (te : TOCEntry) : List String :=
  (rdNormals te).map Prod.fst

/-- The directly emitted directory entries. -/
def rdEnts (te : TOCEntry) : List Dirent :=
  (rdNormals te).map (fun p => Dirent.mk (inodeOfEnt p.2) (direntType p.2) p.1)

/-- The synthesized whiteout entries: one per recorded whiteout child whose
stripped target name has no normal entry, shown as a character device
under the stripped name with the inode of the whiteout entry itself. -/
def rdSynth (te : TOCEntry) : List Dirent :=
  ((rdWhs te).filter (fun p => !((rdNormalNames te).contains (stripWh p.1)))).map
    (fun p => Dirent.mk (inodeOfEnt p.2) DT.char (stripWh p.1))

/-- nodeHandle.ReadDirAll from the source, for a directory content node
backed by te: the direct entries, then the synthesized whiteouts, sorted
by name.  Go iterates the child map in unspecified order; the list order
stands in, and the final sort makes the result order-independent for the
stated claims. -/
def readDirAllEnts (te : TOCEntry) : List Dirent :=
  sortEnts (rdEnts te ++ rdSynth te)

/-! ## FUSE nodes and lookup -/

/-- The node variants served by the filesystem: content nodes wrap a TOC
entry together with the opaque flag computed at lookup time, whiteout
nodes wrap the hidden target entry, the debug root and the static file
carry their assigned inode. -/
inductive FsNode : Type where
  | content (te : TOCEntry) (opq : Bool)
  | wh (te : TOCEntry)
  | debugRootNode (ino : Nat)
  | staticFile (ino : Nat) (contents : String)

/-- The inode each node kind reports from its Attr method: content and
whiteout nodes report inodeOfEnt of their entry, the others their stored
inode. -/
def FsNode.inode : FsNode → Nat
  | .content te _ => inodeOfEnt te
  | .wh te => inodeOfEnt te
  | .debugRootNode i => i
  | .staticFile i _ => i

def FsNode.isDebug : FsNode → Bool
  | .debugRootNode _ => true
  | _ => false

/-- node.Lookup from the source, on the backing entry te and the node child
cache (the Go map n.child, modeled as an association list in insertion
order).  Returns the looked-up node and the updated cache. -/
def nodeLookup (te : TOCEntry) (cache : List (String × FsNode)) (name : String) :
    Option FsNode × List (String × FsNode) :=
  match lookupAssoc cache name with
  | some c => (some c, cache)
  | none =>
    if hasWhPre name then (none, cache)
    else
      match te.lookupChild name with
      | some e =>
        (some (FsNode.content e (e.lookupChild whOpqDir).isSome),
         cache ++ [(name, FsNode.content e (e.lookupChild whOpqDir).isSome)])
      | none =>
        match te.lookupChild (whAdd name) with
        | some e => (some (FsNode.wh e), cache ++ [(name, FsNode.wh e)])
        | none => (none, cache)

/-! ## Xattr adapter -/

/-- The serialized null-terminated attribute-name sequence built by
node.Listxattr: the synthetic opaque key first when the node is opaque,
then every stored xattr key, each followed by a 0 byte. -/
def serializeNames (te : TOCEntry) (opq : Bool) : List Nat :=
  (if opq then strBytes opqXattr ++ [0] else []) ++
    (te.xattrs.map (fun p => strBytes p.1 ++ [0])).flatten

/-- node.Listxattr from the source: empty when the position is at or past
the end of the serialized sequence, otherwise the suffix from there. -/
def nodeListxattr (te : TOCEntry) (opq : Bool) (pos : Nat) : List Nat :=
  if (serializeNames te opq).length ≤ pos then []
  else (serializeNames te opq).drop pos

/-- The value bytes node.Getxattr selects for a request name: the fixed
marker value for the opaque key on an opaque node, the stored value for
other keys, empty otherwise. -/
def xattrValue (te : TOCEntry) (opq : Bool) (rname : String) : List Nat :=
  if rname = opqXattr then (if opq then opqXattrVal else [])
  else (lookupAssoc te.xattrs rname).getD []

/-- node.Getxattr from the source: empty when the position is at or past
the end of the value bytes, otherwise the suffix from there. -/
def nodeGetxattr (te : TOCEntry) (opq : Bool) (rname : String) (pos : Nat) : List Nat :=
  if (xattrValue te opq rname).length ≤ pos then []
  else (xattrValue te opq rname).drop pos

/-! ## Inode allocator (lazyInode) and the root -/

/-- Two to the power thirty-two, the modulus of the uint32 counter. -/
def UINT32MOD : Nat := 4294967296

/-- lazyInode.inode from the source, sequentially: the argument slot is the
per-node field, ctr the global counter atomicInodeIncr (a uint32, wrapping
on increment).  Returns the reported value and the updated slot and
counter.  In the source the compare-and-swap loop retries on a lost race;
sequentially the swap always succeeds on the first try. -/
def lazyInodeGet (slot ctr : Nat) : Nat × Nat × Nat :=
  if slot ≠ 0 then (slot, slot, ctr)
  else
    let v := (ctr + 1) % UINT32MOD
    (v, v, v)

/-- The mutable state behind the root node: the lazy inode slots of its two
dirEnt children, the global inode counter, and the next fresh allocation
id for TOC entries (models the Go heap giving fresh addresses). -/
structure RootState where
  rootfsIno : Nat
  readmeIno : Nat
  ctr : Nat
  heapNext : Nat
  deriving DecidableEq, Repr

def readmeName : String := "README-crfs.txt"

def readmeContents : String := "This is CRFS. See https://github.com/google/crfs.\n"

/-- Modelled from the spec: the external archive reader (stargz.Open
followed by the root lookup) is not part of this repository; per the spec
it opens an archive and yields its root table-of-contents entry.  Each
open allocates fresh entries, modeled by stamping the root entry with the
next fresh allocation id; the entry contents are irrelevant to the claims
settled here, only the freshness of the identity matters. -/
def stargzFreshRoot (addr : Nat) : TOCEntry := TOCEntry.mk addr "dir" [] []

/-- dirEnts.Lookup on the root node, specialized to the two fixed children
installed by FS.Root.  The rootfs child memoizes its dirEnt inode, then
its lookupNode constructs a layerDebugRoot with that inode and immediately
delegates to layerDebugRoot.Lookup of the fixed local archive, which opens
the archive afresh and wraps its root entry in a new content node with an
empty child cache.  The README child returns a staticFile carrying the
memoized dirEnt inode.  Any other name yields ENOENT (none). -/
def rootLookup (st : RootState) (name : String) : Option FsNode × RootState :=
  if name = "rootfs" then
    let r := lazyInodeGet st.rootfsIno st.ctr
    (some (FsNode.content (stargzFreshRoot st.heapNext) false),
     { st with rootfsIno := r.2.1, ctr := r.2.2, heapNext := st.heapNext + 1 })
  else if name = readmeName then
    let r := lazyInodeGet st.readmeIno st.ctr
    (some (FsNode.staticFile r.1 readmeContents),
     { st with readmeIno := r.2.1, ctr := r.2.2 })
  else (none, st)

/-- dirEnts.ReadDirAll on the root node: one Dirent per fixed child, inode
from the memoized lazy slot, sorted by name.  Go iterates the map in
unspecified order before sorting; we iterate in the sorted name order
(README before rootfs), which only fixes which counter values are handed
out on the very first listing. -/
def rootReadDirAll (st : RootState) : List Dirent × RootState :=
  let r1 := lazyInodeGet st.readmeIno st.ctr
  let r2 := lazyInodeGet st.rootfsIno r1.2.2
  ([Dirent.mk r1.1 DT.file readmeName, Dirent.mk r2.1 DT.dir "rootfs"],
   { st with readmeIno := r1.2.1, rootfsIno := r2.2.1, ctr := r2.2.2 })

/-- The state of a freshly served filesystem: no inode assigned yet, the
counter at zero, and an arbitrary strictly positive base for fresh
allocation ids. -/
def initRootState : RootState := RootState.mk 0 0 0 1000

/-! ## File handles, the chunk cache and Read -/

/-- A chunk descriptor as exposed by the archive reader interface
(Reader.ChunkEntryForOffset). -/
structure Chunk where
  chunkOffset : Int
  chunkSize : Nat
  deriving DecidableEq, Repr

/-- The mutable cache fields of a nodeHandle: the key pair and the bytes of
the most recently fetched chunk. -/
structure HState where
  lastChunkOff : Int
  lastChunkSize : Nat
  lastChunk : List Nat
  deriving DecidableEq, Repr

/-- A nodeHandle as created by node.Open for a file: zeroed cache fields. -/
def initHState : HState := HState.mk 0 0 []

/-- io.SectionReader.ReadAt over the file bytes, as called by chunkData
with a fresh buffer of the requested size: positions before the start or
at or past the end fail immediately; otherwise the available bytes are
copied and the call succeeds exactly when the whole buffer was filled.
The returned list is the full buffer (length size), zero-padded past the
bytes actually read, matching the Go buffer make gives. -/
def sectionReadAt (data : List Nat) (off : Int) (size : Nat) : List Nat × Bool :=
  if off < 0 ∨ (data.length : Int) ≤ off then
    (List.replicate size 0, false)
  else
    ((data.drop off.toNat).take (min size (data.length - off.toNat)) ++
       List.replicate (size - min size (data.length - off.toNat)) 0,
     decide (size ≤ data.length - off.toNat))

/-- nodeHandle.chunkData from the source: serve from the one-slot cache
when the key pair matches, otherwise fetch through the section reader and
replace the slot only on success. -/
def chunkData (data : List Nat) (st : HState) (offset : Int) (size : Nat) :
    List Nat × Bool × HState :=
  if st.lastChunkOff = offset ∧ st.lastChunkSize = size then
    (st.lastChunk, true, st)
  else
    let r := sectionReadAt data offset size
    if r.2 then (r.1, true, HState.mk offset size r.1)
    else (r.1, false, st)

/-- The outcome of nodeHandle.Read: a successful response with its bytes,
an error return from a failed chunk fetch, fuel exhaustion standing for a
non-terminating loop, or a Go slice-bounds panic. -/
inductive ReadOut : Type where
  | ok (bytes : List Nat) (st : HState)
  | err (st : HState)
  | fuel
  | panicked
  deriving DecidableEq, Repr

/-- The loop body of nodeHandle.Read: while fewer than reqSize bytes are
assembled, ask the archive for the chunk covering the next logical
position, stop on none, fetch its bytes (through the cache), and copy the
overlap of the chunk past the displacement of the position from the chunk
start into the response.  acc is the filled portion of the response
buffer, nr its length in the source.  The fuel argument only bounds the
number of iterations; since an iteration that copies at least one byte
reduces reqSize minus nr, fuel exceeding reqSize is never exhausted unless
an iteration copies nothing, in which case the source loops forever. -/
def readLoop (data : List Nat) (getChunk : Int → Option Chunk) (reqOffset : Int)
    (reqSize : Nat) : Nat → Nat → List Nat → HState → ReadOut
  | 0, _, _, _ => ReadOut.fuel
  | fuel + 1, nr, acc, st =>
    if reqSize ≤ nr then ReadOut.ok acc st
    else
      match getChunk (reqOffset + (nr : Int)) with
      | none => ReadOut.ok acc st
      | some ce =>
        match chunkData data st ce.chunkOffset ce.chunkSize with
        | (chunk, good, st') =>
          if good then
            if reqOffset + (nr : Int) - ce.chunkOffset < 0 ∨
                (chunk.length : Int) < reqOffset + (nr : Int) - ce.chunkOffset then
              ReadOut.panicked
            else
              readLoop data getChunk reqOffset reqSize fuel
                (nr + min (reqSize - nr)
                  (chunk.drop (reqOffset + (nr : Int) - ce.chunkOffset).toNat).length)
                (acc ++ (chunk.drop (reqOffset + (nr : Int) - ce.chunkOffset).toNat).take
                  (min (reqSize - nr)
                    (chunk.drop (reqOffset + (nr : Int) - ce.chunkOffset).toNat).length))
                st'
          else ReadOut.err st'

/-- nodeHandle.Read from the source: run the loop from an empty response.
Fuel reqSize + 1 is exact, see readLoop. -/
def nodeHandleRead (data : List Nat) (getChunk : Int → Option Chunk) (reqOffset : Int)
    (reqSize : Nat) (st : HState) : ReadOut :=
  readLoop data getChunk reqOffset reqSize (reqSize + 1) 0 [] st

/-- A read outcome with the cache state forgotten, for comparing cached and
uncached runs. -/
inductive ReadPure : Type where
  | ok (bytes : List Nat)
  | err
  | fuel
  | panicked
  deriving DecidableEq, Repr

def ReadOut.toPure : ReadOut → ReadPure
  | .ok bytes _ => ReadPure.ok bytes
  | .err _ => ReadPure.err
  | .fuel => ReadPure.fuel
  | .panicked => ReadPure.panicked

/-- The uncached reference reader, following the words of the spec: the
same loop as readLoop but every chunk is fetched directly through the
section reader, with no cache consulted or updated. -/
def readLoopNC (data : List Nat) (getChunk : Int → Option Chunk) (reqOffset : Int)
    (reqSize : Nat) : Nat → Nat → List Nat → ReadPure
  | 0, _, _ => ReadPure.fuel
  | fuel + 1, nr, acc =>
    if reqSize ≤ nr then ReadPure.ok acc
    else
      match getChunk (reqOffset + (nr : Int)) with
      | none => ReadPure.ok acc
      | some ce =>
        match sectionReadAt data ce.chunkOffset ce.chunkSize with
        | (chunk, good) =>
          if good then
            if reqOffset + (nr : Int) - ce.chunkOffset < 0 ∨
                (chunk.length : Int) < reqOffset + (nr : Int) - ce.chunkOffset then
              ReadPure.panicked
            else
              readLoopNC data getChunk reqOffset reqSize fuel
                (nr + min (reqSize - nr)
                  (chunk.drop (reqOffset + (nr : Int) - ce.chunkOffset).toNat).length)
                (acc ++ (chunk.drop (reqOffset + (nr : Int) - ce.chunkOffset).toNat).take
                  (min (reqSize - nr)
                    (chunk.drop (reqOffset + (nr : Int) - ce.chunkOffset).toNat).length))
          else ReadPure.err

/-- A direct uncached fetch of a logical range, the reference the cache is
compared against. -/
def uncachedRead (data : List Nat) (getChunk : Int → Option Chunk) (reqOffset : Int)
    (reqSize : Nat) : ReadPure :=
  readLoopNC data getChunk reqOffset reqSize (reqSize + 1) 0 []

/-- A sequence of reads issued on one handle, threading the cache state,
as the claims about a handle lifetime quantify over.  A hung or panicked
read ends the sequence. -/
def runReads (data : List Nat) (getChunk : Int → Option Chunk) :
    List (Int × Nat) → HState → List ReadPure
  | [], _ => []
  | r :: rs, st =>
    match nodeHandleRead data getChunk r.1 r.2 st with
    | ReadOut.ok b st' => ReadPure.ok b :: runReads data getChunk rs st'
    | ReadOut.err st' => ReadPure.err :: runReads data getChunk rs st'
    | other => [other.toPure]

/-- The cache invariant of a handle over immutable file bytes: either the
slot is still the zeroed initial one (size zero), or it holds exactly the
bytes a successful direct fetch of its key returns. -/
def cacheGood (data : List Nat) (st : HState) : Prop :=
  st.lastChunkSize = 0 ∨
    sectionReadAt data st.lastChunkOff st.lastChunkSize = (st.lastChunk, true)

/-- The covering contract of the external chunk lookup: a returned chunk
descriptor covers the queried position. -/
def chunksCover (getChunk : Int → Option Chunk) : Prop :=
  ∀ pos ce, getChunk pos = some ce →
    ce.chunkOffset ≤ pos ∧ pos < ce.chunkOffset + (ce.chunkSize : Int)

/-- The in-file contract of the external chunk lookup: a returned chunk
descriptor lies inside the file bytes, so fetching it yields exactly
chunk-size bytes. -/
def chunksInFile (data : List Nat) (getChunk : Int → Option Chunk) : Prop :=
  ∀ pos ce, getChunk pos = some ce →
    0 ≤ ce.chunkOffset ∧ ce.chunkOffset.toNat + ce.chunkSize ≤ data.length

/-! ## Result projections and concrete inputs used by the witnesses and
counterexamples below -/

/-- The child cache of a content node never holds a whiteout-prefixed key:
every cached binding was created by a lookup, which rejects such names
before caching. -/
def cacheCleanWh (cache : List (String × FsNode)) : Bool :=
  (cache.map Prod.fst).all (fun k => !(hasWhPre k))

def c3TE : TOCEntry :=
  TOCEntry.mk 1 "dir" [] [(".wh..wh.foo", TOCEntry.mk 7 "reg" [] [])]

def c3WitTE : TOCEntry := TOCEntry.mk 40 "dir" [] [("a", TOCEntry.mk 41 "reg" [] [])]

def c4TE : TOCEntry := TOCEntry.mk 2 "dir" []
  [(whOpqDir, TOCEntry.mk 3 "reg" [] []), (".wh..wh..wh..opq", TOCEntry.mk 4 "reg" [] [])]

def c4WitChild : TOCEntry := TOCEntry.mk 51 "dir" []
  [(whOpqDir, TOCEntry.mk 52 "reg" [] []), ("f", TOCEntry.mk 53 "reg" [] [])]

def c4WitTE : TOCEntry := TOCEntry.mk 50 "dir" [] [("d", c4WitChild)]

def wChild : TOCEntry := TOCEntry.mk 11 "reg" [] []

def wTE : TOCEntry := TOCEntry.mk 10 "dir" [] [("a", wChild)]

def wNode : FsNode := FsNode.content wChild false

def wCache : List (String × FsNode) := [("a", wNode)]

def c2TeA : TOCEntry := TOCEntry.mk 20 "dir" []
  [(".wh.bar", TOCEntry.mk 21 "reg" [] []), ("a.txt", TOCEntry.mk 22 "reg" [] [])]

def c2TeB : TOCEntry := TOCEntry.mk 30 "dir" []
  [(".wh.bar", TOCEntry.mk 31 "reg" [] []), ("bar", TOCEntry.mk 32 "reg" [] [])]

def ReadOut.isOk : ReadOut → Bool
  | .ok _ _ => true
  | _ => false

def ReadOut.bytes : ReadOut → List Nat
  | .ok b _ => b
  | _ => []

def wData : List Nat := [104, 101, 108, 108, 111]

def wGetChunk : Int → Option Chunk := fun pos =>
  if 0 ≤ pos ∧ pos < 5 then some (Chunk.mk 0 5) else none

/-! ## Helper lemmas: association lists and whiteout names -/

lemma lookupAssoc_mem {α : Type} {l : List (String × α)} {k : String} {v : α}
    (h : lookupAssoc l k = some v) : (k, v) ∈ l := by
  induction l with
  | nil => simp [lookupAssoc] at h
  | cons p ps ih =>
    simp only [lookupAssoc] at h
    split at h
    · next hk =>
      rw [List.mem_cons]
      left
      cases p
      simp_all
    · exact List.mem_cons_of_mem _ (ih h)

lemma lookupAssoc_none_notmem {α : Type} {l : List (String × α)} {k : String}
    (h : lookupAssoc l k = none) : ∀ v : α, (k, v) ∉ l := by
  induction l with
  | nil => simp
  | cons p ps ih =>
    simp only [lookupAssoc] at h
    split at h
    · simp at h
    · next hne =>
      intro v hv
      rcases List.mem_cons.mp hv with h1 | h2
      · exact hne (by rw [← h1])
      · exact ih h v h2

lemma lookupAssoc_append_single {α : Type} {l : List (String × α)} {k : String} {v : α}
    (h : lookupAssoc l k = none) : lookupAssoc (l ++ [(k, v)]) k = some v := by
  induction l with
  | nil => simp [lookupAssoc]
  | cons p ps ih =>
    simp only [lookupAssoc] at h
    split at h
    · simp at h
    · next hne =>
      simp only [List.cons_append, lookupAssoc, if_neg hne]
      exact ih h

lemma keysNodup_unique {α : Type} {l : List (String × α)} {k : String} {v1 v2 : α}
    (hnd : keysNodup l) (h1 : (k, v1) ∈ l) (h2 : (k, v2) ∈ l) : v1 = v2 := by
  induction l with
  | nil => simp at h1
  | cons p ps ih =>
    have hp : p.1 ∉ ps.map Prod.fst := (List.nodup_cons.mp hnd).1
    have hnd' : keysNodup ps := (List.nodup_cons.mp hnd).2
    rcases List.mem_cons.mp h1 with e1 | m1 <;> rcases List.mem_cons.mp h2 with e2 | m2
    · have h12 := e1.trans e2.symm
      simp only [Prod.mk.injEq] at h12
      exact h12.2
    · exfalso
      have hk : k ∈ ps.map Prod.fst := List.mem_map_of_mem Prod.fst m2
      apply hp
      rw [← e1]
      exact hk
    · exfalso
      have hk : k ∈ ps.map Prod.fst := List.mem_map_of_mem Prod.fst m1
      apply hp
      rw [← e2]
      exact hk
    · exact ih hnd' m1 m2

lemma whPre_data : whPre.data = ['.', 'w', 'h', '.'] := rfl

lemma hasWhPre_iff {s : String} : hasWhPre s = true ↔ s.data.take 4 = whPre.data := by
  simp [hasWhPre]

lemma string_mk_data (s : String) : String.mk s.data = s := rfl

lemma hasWhPre_whAdd (s : String) : hasWhPre (whAdd s) = true := by
  rw [hasWhPre_iff]
  show (whPre.data ++ s.data).take 4 = whPre.data
  have h4 : whPre.data.length = 4 := rfl
  rw [← h4, List.take_left]

lemma stripWh_whAdd (s : String) : stripWh (whAdd s) = s := by
  show String.mk ((whPre.data ++ s.data).drop 4) = s
  have h4 : whPre.data.length = 4 := rfl
  rw [← h4, List.drop_left]

lemma whAdd_stripWh {s : String} (h : hasWhPre s = true) : whAdd (stripWh s) = s := by
  rw [hasWhPre_iff] at h
  show String.mk (whPre.data ++ s.data.drop 4) = s
  rw [← h, List.take_append_drop]

lemma whAdd_inj {s t : String} (h : whAdd s = whAdd t) : s = t := by
  have hd : whPre.data ++ s.data = whPre.data ++ t.data := congrArg String.data h
  have : s.data = t.data := List.append_cancel_left hd
  calc s = String.mk s.data := rfl
    _ = String.mk t.data := by rw [this]
    _ = t := rfl

lemma not_hasWhPre_whOpqDir_ne {s : String} (h : hasWhPre s = false) : s ≠ whOpqDir := by
  intro he
  rw [he] at h
  have : hasWhPre whOpqDir = true := by decide
  simp [this] at h

/-! ## Helper lemmas: listing membership -/

lemma mem_readDirAllEnts {te : TOCEntry} {d : Dirent} :
    d ∈ readDirAllEnts te ↔ d ∈ rdEnts te ∨ d ∈ rdSynth te := by
  unfold readDirAllEnts sortEnts
  rw [List.mem_insertionSort, List.mem_append]

lemma mem_rdNormalNames {te : TOCEntry} {s : String} :
    s ∈ rdNormalNames te ↔ ∃ e, (s, e) ∈ te.children ∧ hasWhPre s = false := by
  unfold rdNormalNames rdNormals
  constructor
  · intro h
    rcases List.mem_map.mp h with ⟨p, hp, he⟩
    rcases List.mem_filter.mp hp with ⟨hmem, hq⟩
    obtain ⟨a, b⟩ := p
    cases he
    exact ⟨b, hmem, by simpa using hq⟩
  · rintro ⟨e, hmem, hq⟩
    exact List.mem_map.mpr ⟨(s, e), List.mem_filter.mpr ⟨hmem, by simp [hq]⟩, rfl⟩

lemma mem_rdEnts {te : TOCEntry} {d : Dirent} :
    d ∈ rdEnts te ↔ ∃ p, p ∈ te.children ∧ hasWhPre p.1 = false ∧
      d = Dirent.mk (inodeOfEnt p.2) (direntType p.2) p.1 := by
  unfold rdEnts rdNormals
  constructor
  · intro h
    rcases List.mem_map.mp h with ⟨p, hp, he⟩
    rcases List.mem_filter.mp hp with ⟨hmem, hq⟩
    exact ⟨p, hmem, by simpa using hq, he.symm⟩
  · rintro ⟨p, hmem, hq, he⟩
    exact List.mem_map.mpr ⟨p, List.mem_filter.mpr ⟨hmem, by simp [hq]⟩, he.symm⟩

lemma mem_rdSynth {te : TOCEntry} {d : Dirent} :
    d ∈ rdSynth te ↔ ∃ p, p ∈ te.children ∧ hasWhPre p.1 = true ∧ p.1 ≠ whOpqDir ∧
      stripWh p.1 ∉ rdNormalNames te ∧
      d = Dirent.mk (inodeOfEnt p.2) DT.char (stripWh p.1) := by
  unfold rdSynth rdWhs
  constructor
  · intro h
    rcases List.mem_map.mp h with ⟨p, hp, he⟩
    rcases List.mem_filter.mp hp with ⟨hp2, hc⟩
    rcases List.mem_filter.mp hp2 with ⟨hmem, hq⟩
    simp only [Bool.and_eq_true, Bool.not_eq_true', beq_eq_false_iff_ne] at hq
    refine ⟨p, hmem, hq.1, hq.2, ?_, he.symm⟩
    intro hin
    rw [Bool.not_eq_true', ← Bool.not_eq_true] at hc
    exact hc (List.elem_iff.mpr hin)
  · rintro ⟨p, hmem, hq1, hq2, hnin, he⟩
    refine List.mem_map.mpr ⟨p, List.mem_filter.mpr ⟨List.mem_filter.mpr ⟨hmem, ?_⟩, ?_⟩, he.symm⟩
    · simp [hq1, hq2]
    · simp only [Bool.not_eq_true']
      rw [← Bool.not_eq_true]
      intro hc
      exact hnin (List.elem_iff.mp hc)

/-! ## Helper lemmas: the lazy inode allocator -/

lemma lazyInodeGet_zero (ctr : Nat) :
    lazyInodeGet 0 ctr
      = ((ctr + 1) % UINT32MOD, (ctr + 1) % UINT32MOD, (ctr + 1) % UINT32MOD) := by
  unfold lazyInodeGet
  simp

lemma lazyInodeGet_pos {slot : Nat} (hs : slot ≠ 0) (ctr : Nat) :
    lazyInodeGet slot ctr = (slot, slot, ctr) := by
  unfold lazyInodeGet
  simp [hs]

lemma lazyInodeGet_ne_zero {ctr : Nat} (h : ctr + 1 < UINT32MOD) :
    (lazyInodeGet 0 ctr).1 ≠ 0 := by
  rw [lazyInodeGet_zero]
  show (ctr + 1) % UINT32MOD ≠ 0
  rw [Nat.mod_eq_of_lt h]
  omega

lemma lazyInodeGet_stable (slot ctr ctr2 : Nat) (h : ctr + 1 < UINT32MOD) :
    lazyInodeGet (lazyInodeGet slot ctr).2.1 ctr2
      = ((lazyInodeGet slot ctr).1, (lazyInodeGet slot ctr).2.1, ctr2) := by
  by_cases hs : slot = 0
  · subst hs
    rw [lazyInodeGet_zero]
    show lazyInodeGet ((ctr + 1) % UINT32MOD) ctr2 = _
    rw [Nat.mod_eq_of_lt h]
    exact lazyInodeGet_pos (by omega) ctr2
  · rw [lazyInodeGet_pos hs]
    exact lazyInodeGet_pos hs ctr2

lemma lazyInodeGet_ctr_le (slot ctr : Nat) :
    (lazyInodeGet slot ctr).2.2 ≤ ctr + 1 := by
  by_cases hs : slot = 0
  · subst hs
    rw [lazyInodeGet_zero]
    show (ctr + 1) % UINT32MOD ≤ ctr + 1
    exact Nat.mod_le _ _
  · rw [lazyInodeGet_pos hs]
    show ctr ≤ ctr + 1
    omega

/-- Claim C7: the inode allocator contract.  With the counter below the
uint32 wrap bound, a fresh allocation never reports zero, a later call on
the updated slot reports the same value and leaves the slot unchanged
whatever the counter then holds, and an already-assigned slot is returned
unchanged. -/
theorem c7_inode_allocator (ctr ctr2 slot : Nat) (hctr : ctr + 1 < UINT32MOD)
    (hslot : slot ≠ 0) :
    (lazyInodeGet 0 ctr).1 ≠ 0 ∧
    lazyInodeGet (lazyInodeGet 0 ctr).2.1 ctr2
      = ((lazyInodeGet 0 ctr).1, (lazyInodeGet 0 ctr).2.1, ctr2) ∧
    lazyInodeGet slot ctr = (slot, slot, ctr) := by
  refine ⟨lazyInodeGet_ne_zero hctr, lazyInodeGet_stable 0 ctr ctr2 hctr, ?_⟩
  unfold lazyInodeGet
  simp [hslot]

theorem c7_witness :
    (lazyInodeGet 0 0).1 ≠ 0 ∧
    lazyInodeGet (lazyInodeGet 0 0).2.1 5 = ((lazyInodeGet 0 0).1, (lazyInodeGet 0 0).2.1, 5) ∧
    lazyInodeGet 3 0 = (3, 3, 0) :=
  c7_inode_allocator 0 5 3 (by decide) (by decide)

/-- Claim C8: listxattr with byte position pos returns the suffix of the
serialized null-terminated attribute-name sequence starting at pos, and
getxattr with position pos returns the suffix of the selected attribute
value starting at pos; a position at or past the end yields the empty
result (and no error is possible, both operations being total). -/
theorem c8_xattr_offsets (te : TOCEntry) (opq : Bool) (rname : String) (pos k : Nat) :
    nodeListxattr te opq pos = (serializeNames te opq).drop pos ∧
    nodeListxattr te opq ((serializeNames te opq).length + k) = [] ∧
    nodeGetxattr te opq rname pos = (xattrValue te opq rname).drop pos ∧
    nodeGetxattr te opq rname ((xattrValue te opq rname).length + k) = [] := by
  refine ⟨?_, ?_, ?_, ?_⟩
  · unfold nodeListxattr
    split
    · next h => exact (List.drop_eq_nil_of_le h).symm
    · rfl
  · unfold nodeListxattr
    simp [Nat.le_add_right]
  · unfold nodeGetxattr
    split
    · next h => exact (List.drop_eq_nil_of_le h).symm
    · rfl
  · unfold nodeGetxattr
    simp [Nat.le_add_right]

/-! ## Claim C1 -/

/-- Claim C1 (corrected): identity stability holds for content-node and
whiteout children through the per-node child cache (a repeated lookup of
the same name under the same parent returns the very same cached node, so
the same reported inode, and leaves the cache unchanged), and for the
static README child of the root, whose memoized dirEnt inode is reused on
every lookup.  It fails for the rootfs child of the root, which reopens
the archive and wraps a freshly allocated root entry on every lookup, see
the counterexample. -/
theorem c1_identity_stability (te : TOCEntry) (cache : List (String × FsNode))
    (name : String) (c : FsNode) (cache' : List (String × FsNode))
    (st st1 : RootState) (n1 : FsNode)
    (hn : nodeLookup te cache name = (some c, cache'))
    (hctr : st.ctr + 1 < UINT32MOD)
    (hr : rootLookup st readmeName = (some n1, st1)) :
    nodeLookup te cache' name = (some c, cache') ∧
    (rootLookup st1 readmeName).1.map FsNode.inode = some (FsNode.inode n1) := by
  constructor
  · unfold nodeLookup at hn
    split at hn
    · next c0 hca =>
      rw [Prod.mk.injEq] at hn
      obtain ⟨hc, hcc⟩ := hn
      injection hc with hc
      subst hc
      subst hcc
      unfold nodeLookup
      rw [hca]
    · next hca =>
      split at hn
      · rw [Prod.mk.injEq] at hn
        exact absurd hn.1 (by simp)
      · split at hn
        · next e hle =>
          rw [Prod.mk.injEq] at hn
          obtain ⟨hc, hcc⟩ := hn
          injection hc with hc
          subst hc
          subst hcc
          unfold nodeLookup
          rw [lookupAssoc_append_single hca]
        · split at hn
          · next e hlw =>
            rw [Prod.mk.injEq] at hn
            obtain ⟨hc, hcc⟩ := hn
            injection hc with hc
            subst hc
            subst hcc
            unfold nodeLookup
            rw [lookupAssoc_append_single hca]
          · rw [Prod.mk.injEq] at hn
            exact absurd hn.1 (by simp)
  · unfold rootLookup at hr
    rw [if_neg (by decide : ¬ readmeName = "rootfs"), if_pos rfl] at hr
    rw [Prod.mk.injEq] at hr
    obtain ⟨hn1, hst1⟩ := hr
    injection hn1 with hn1
    subst hn1
    subst hst1
    unfold rootLookup
    rw [if_neg (by decide : ¬ readmeName = "rootfs"), if_pos rfl]
    show some (FsNode.inode (FsNode.staticFile (lazyInodeGet
        (lazyInodeGet st.readmeIno st.ctr).2.1 (lazyInodeGet st.readmeIno st.ctr).2.2).1
        readmeContents)) = _
    rw [lazyInodeGet_stable st.readmeIno st.ctr _ hctr]

theorem c1_witness :
    nodeLookup wTE wCache "a" = (some wNode, wCache) ∧
    (rootLookup (rootLookup initRootState readmeName).2 readmeName).1.map FsNode.inode
      = some 1 := by
  have h := c1_identity_stability wTE [] "a" wNode wCache
      initRootState (rootLookup initRootState readmeName).2
      (FsNode.staticFile 1 readmeContents) rfl (by decide) rfl
  exact ⟨h.1, h.2⟩

/-- Counterexample to claim C1 as stated: two consecutive lookups of the
rootfs child under the root return nodes reporting different inode
identifiers (each lookup reopens the archive, allocating a fresh root
entry whose pointer-derived inode differs). -/
theorem c1_counterexample :
    (rootLookup initRootState "rootfs").1.map FsNode.inode = some 1000 ∧
    (rootLookup (rootLookup initRootState "rootfs").2 "rootfs").1.map FsNode.inode
      = some 1001 ∧
    (1000 : Nat) ≠ 1001 :=
  ⟨rfl, rfl, by decide⟩

/-! ## Claim C3 -/

/-- Claim C3 (corrected): a whiteout-prefixed name is never directly
addressable: lookup of such a name under a content node whose cache was
built by lookups reports not-found and leaves the cache unchanged, and
every lookup preserves that cache invariant.  A listing entry can carry
the prefix verbatim only when the backing children contain the doubly
prefixed form of that name (whiteout synthesis strips one prefix), see the
counterexample; for archives without such children no listed name carries
the prefix. -/
theorem c3_whiteout_suppression (te : TOCEntry) (cache : List (String × FsNode))
    (name : String) (hcc : cacheCleanWh cache = true) :
    (hasWhPre name = true → nodeLookup te cache name = (none, cache)) ∧
    cacheCleanWh (nodeLookup te cache name).2 = true ∧
    (readDirAllEnts te).all
      (fun d => !(hasWhPre d.name) || (te.children.map Prod.fst).contains (whAdd d.name))
      = true := by
  refine ⟨?_, ?_, ?_⟩
  · intro hwh
    have hca : lookupAssoc cache name = none := by
      cases hc : lookupAssoc cache name with
      | none => rfl
      | some c =>
        exfalso
        have hmem : name ∈ cache.map Prod.fst :=
          List.mem_map_of_mem Prod.fst (lookupAssoc_mem hc)
        have := List.all_eq_true.mp (by unfold cacheCleanWh at hcc; exact hcc) name hmem
        simp [hwh] at this
    unfold nodeLookup
    rw [hca]
    simp [hwh]
  · unfold nodeLookup
    cases hca : lookupAssoc cache name with
    | some c => exact hcc
    | none =>
      by_cases hwh : hasWhPre name = true
      · simp [hwh, hcc]
      · rw [Bool.not_eq_true] at hwh
        simp only [hwh, Bool.false_eq_true, if_false]
        cases hle : te.lookupChild name with
        | some e =>
          unfold cacheCleanWh at hcc ⊢
          simp [List.all_append, hcc, hwh]
        | none =>
          cases hlw : te.lookupChild (whAdd name) with
          | some e =>
            unfold cacheCleanWh at hcc ⊢
            simp [List.all_append, hcc, hwh]
          | none => exact hcc
  · rw [List.all_eq_true]
    intro d hd
    rcases mem_readDirAllEnts.mp hd with h | h
    · rcases mem_rdEnts.mp h with ⟨p, hmem, hq, he⟩
      subst he
      simp [hq]
    · rcases mem_rdSynth.mp h with ⟨p, hmem, hq1, hq2, hnin, he⟩
      subst he
      have hk : p.1 ∈ te.children.map Prod.fst := List.mem_map_of_mem Prod.fst hmem
      have : whAdd (stripWh p.1) = p.1 := whAdd_stripWh hq1
      simp only [Bool.or_eq_true]
      right
      rw [this.symm] at hk
      exact List.elem_iff.mpr hk

/-- Counterexample to claim C3 as stated: a directory with backing child
named .wh..wh.foo produces a merged listing whose single entry is named
.wh.foo, a name carrying the reserved whiteout prefix verbatim. -/
theorem c3_counterexample :
    readDirAllEnts c3TE = [Dirent.mk 7 DT.char ".wh.foo"] ∧
    hasWhPre ".wh.foo" = true := ⟨rfl, rfl⟩

theorem c3_witness :
    nodeLookup c3WitTE [] ".wh.x" = (none, []) ∧
    cacheCleanWh (nodeLookup c3WitTE [] ".wh.x").2 = true ∧
    (readDirAllEnts c3WitTE).all
      (fun d => !(hasWhPre d.name) || (c3WitTE.children.map Prod.fst).contains (whAdd d.name))
      = true := by
  have h := c3_whiteout_suppression c3WitTE [] ".wh.x" rfl
  exact ⟨h.1 rfl, h.2.1, h.2.2⟩

/-! ## Claim C4 -/

/-- Claim C4 (corrected): looking up a directory whose children include the
opaque marker yields a content node with the opaque flag set and caches
it, and getxattr of the overlay opaque attribute on an opaque node at
position zero returns the fixed marker value.  The marker name itself is
absent from the merged listing provided the children do not also contain
the whiteout-prefixed form of the marker name, whose whiteout synthesis
re-emits the marker name, see the counterexample. -/
theorem c4_opaque_handling (te e m : TOCEntry) (cache : List (String × FsNode))
    (name : String)
    (hca : lookupAssoc cache name = none)
    (hwh : hasWhPre name = false)
    (hle : te.lookupChild name = some e)
    (hm : e.lookupChild whOpqDir = some m)
    (hnm : (e.children.map Prod.fst).contains (whAdd whOpqDir) = false) :
    nodeLookup te cache name
      = (some (FsNode.content e true), cache ++ [(name, FsNode.content e true)]) ∧
    nodeGetxattr e true opqXattr 0 = opqXattrVal ∧
    (readDirAllEnts e).all (fun d => !(d.name == whOpqDir)) = true := by
  refine ⟨?_, ?_, ?_⟩
  · unfold nodeLookup
    rw [hca]
    simp [hwh, hle, hm]
  · simp [nodeGetxattr, xattrValue, opqXattrVal]
  · rw [List.all_eq_true]
    intro d hd
    rcases mem_readDirAllEnts.mp hd with h | h
    · rcases mem_rdEnts.mp h with ⟨p, hmem, hq, he⟩
      subst he
      simp only [Bool.not_eq_true', beq_eq_false_iff_ne, ne_eq]
      exact not_hasWhPre_whOpqDir_ne hq
    · rcases mem_rdSynth.mp h with ⟨p, hmem, hq1, hq2, hnin, he⟩
      subst he
      simp only [Bool.not_eq_true', beq_eq_false_iff_ne, ne_eq]
      intro heq
      have hp1 : p.1 = whAdd whOpqDir := by
        rw [← whAdd_stripWh hq1, heq]
      have hk : p.1 ∈ e.children.map Prod.fst := List.mem_map_of_mem Prod.fst hmem
      rw [hp1] at hk
      have hc : (e.children.map Prod.fst).contains (whAdd whOpqDir) = true :=
        List.elem_iff.mpr hk
      rw [hnm] at hc
      simp at hc

/-- Counterexample to claim C4 as stated: a directory containing the opaque
marker child together with a child named .wh..wh..wh..opq lists an entry
named exactly the opaque marker (the synthesized whiteout strips one
prefix from the latter). -/
theorem c4_counterexample :
    (c4TE.children.map Prod.fst).contains whOpqDir = true ∧
    readDirAllEnts c4TE = [Dirent.mk 4 DT.char whOpqDir] := ⟨rfl, rfl⟩

theorem c4_witness :
    nodeLookup c4WitTE [] "d"
      = (some (FsNode.content c4WitChild true), [("d", FsNode.content c4WitChild true)]) ∧
    nodeGetxattr c4WitChild true opqXattr 0 = opqXattrVal ∧
    (readDirAllEnts c4WitChild).all (fun d => !(d.name == whOpqDir)) = true :=
  c4_opaque_handling c4WitTE c4WitChild (TOCEntry.mk 52 "reg" [] []) [] "d"
    rfl rfl rfl rfl rfl

/-! ## Claim C9 -/

/-- Claim C9 (corrected): the root has exactly two fixed children, the
rootfs directory entry and the static README file; looking up rootfs
returns a content node wrapping the root entry of a freshly opened local
archive (delegating through the debug root), not the debug-root directory
node itself, see the counterexample; the listing always shows the same two
names and types, and under the wrap bound a repeated listing is
identical. -/
theorem c9_root_structure (st : RootState) (name : String) :
    ((rootLookup st name).1.isSome = true ↔ (name = "rootfs" ∨ name = readmeName)) ∧
    (rootLookup st "rootfs").1 = some (FsNode.content (stargzFreshRoot st.heapNext) false) ∧
    (rootReadDirAll st).1.map (fun d => (d.name, d.dt))
      = [(readmeName, DT.file), ("rootfs", DT.dir)] ∧
    (st.ctr + 2 < UINT32MOD →
      rootReadDirAll (rootReadDirAll st).2 = ((rootReadDirAll st).1, (rootReadDirAll st).2)) := by
  refine ⟨?_, ?_, ?_, ?_⟩
  · unfold rootLookup
    by_cases h1 : name = "rootfs"
    · simp [h1]
    · by_cases h2 : name = readmeName
      · subst h2
        simp [h1]
      · simp [h1, h2]
  · unfold rootLookup
    rw [if_pos rfl]
  · rfl
  · intro hctr
    have h1 : st.ctr + 1 < UINT32MOD := by omega
    have hle1 := lazyInodeGet_ctr_le st.readmeIno st.ctr
    have hc1 : (lazyInodeGet st.readmeIno st.ctr).2.2 + 1 < UINT32MOD := by omega
    unfold rootReadDirAll
    dsimp only
    rw [lazyInodeGet_stable st.readmeIno st.ctr _ h1]
    dsimp only
    rw [lazyInodeGet_stable st.rootfsIno (lazyInodeGet st.readmeIno st.ctr).2.2 _ hc1]

/-- Counterexample to claim C9 as stated: the lookup of the rootfs child
under the root succeeds but the returned node is not a debug-root
directory node (it is a content node wrapping the opened archive root). -/
theorem c9_counterexample :
    (rootLookup initRootState "rootfs").1.map FsNode.isDebug = some false := rfl

theorem c9_witness :
    ((rootLookup initRootState "zzz").1.isSome = true
      ↔ ("zzz" = "rootfs" ∨ "zzz" = readmeName)) ∧
    (rootLookup initRootState "rootfs").1
      = some (FsNode.content (stargzFreshRoot 1000) false) ∧
    (rootReadDirAll initRootState).1.map (fun d => (d.name, d.dt))
      = [(readmeName, DT.file), ("rootfs", DT.dir)] ∧
    rootReadDirAll (rootReadDirAll initRootState).2
      = ((rootReadDirAll initRootState).1, (rootReadDirAll initRootState).2) := by
  have h := c9_root_structure initRootState "zzz"
  exact ⟨h.1, h.2.1, h.2.2.1, h.2.2.2 (by decide)⟩

/-! ## Claim C2 -/

lemma lookupAssoc_none_key {α : Type} {l : List (String × α)} {k : String}
    (h : lookupAssoc l k = none) : k ∉ l.map Prod.fst := by
  intro hk
  rcases List.mem_map.mp hk with ⟨p, hp, he⟩
  obtain ⟨a, b⟩ := p
  cases he
  exact lookupAssoc_none_notmem h b hp

lemma countP_key_of_notmem {α : Type} {l : List (String × α)} {k : String}
    (hno : k ∉ l.map Prod.fst) :
    l.countP (fun p => p.1 == k) = 0 := by
  rw [List.countP_eq_zero]
  intro p hp hbeq
  have hpk : p.1 = k := beq_iff_eq.mp hbeq
  have hmem : p.1 ∈ l.map Prod.fst := List.mem_map_of_mem Prod.fst hp
  rw [hpk] at hmem
  exact hno hmem

lemma countP_key_of_nodup {α : Type} {l : List (String × α)} {k : String}
    (hnd : keysNodup l) (hmem : k ∈ l.map Prod.fst) :
    l.countP (fun p => p.1 == k) = 1 := by
  induction l with
  | nil => simp at hmem
  | cons p ps ih =>
    have hp : p.1 ∉ ps.map Prod.fst := (List.nodup_cons.mp hnd).1
    have hnd' : keysNodup ps := (List.nodup_cons.mp hnd).2
    rw [List.countP_cons]
    rcases List.mem_cons.mp hmem with he | hm
    · have hz : ps.countP (fun q => q.1 == k) = 0 := by
        apply countP_key_of_notmem
        rw [he]
        exact hp
      rw [hz]
      simp [he]
    · have hne : ¬ (p.1 == k) = true := by
        intro hb
        have hpk : p.1 = k := beq_iff_eq.mp hb
        rw [hpk] at hp
        exact hp hm
      rw [ih hnd' hm]
      simp [hne]

lemma countBar_listing (te : TOCEntry) (bar : String) :
    (readDirAllEnts te).countP (fun d => d.name == bar)
      = (rdEnts te).countP (fun d => d.name == bar)
        + (rdSynth te).countP (fun d => d.name == bar) := by
  unfold readDirAllEnts sortEnts
  rw [(List.perm_insertionSort _ _).countP_eq, List.countP_append]

lemma countP_rdEnts (te : TOCEntry) (bar : String) :
    (rdEnts te).countP (fun d => d.name == bar)
      = te.children.countP (fun p => (p.1 == bar) && !(hasWhPre p.1)) := by
  unfold rdEnts rdNormals
  rw [List.countP_map, List.countP_filter]
  rfl

lemma countP_rdSynth (te : TOCEntry) (bar : String) :
    (rdSynth te).countP (fun d => d.name == bar)
      = te.children.countP (fun p =>
          ((stripWh p.1 == bar) && !((rdNormalNames te).contains (stripWh p.1)))
            && (hasWhPre p.1 && !(p.1 == whOpqDir))) := by
  unfold rdSynth rdWhs
  rw [List.countP_map, List.countP_filter, List.countP_filter]
  rfl

lemma whAdd_ne_opq {bar : String} (hbar : hasWhPre bar = false) : whAdd bar ≠ whOpqDir := by
  intro h
  have h2 : whAdd bar = whAdd ".wh..opq" := by rw [h]; rfl
  have h3 := whAdd_inj h2
  rw [h3] at hbar
  have ht : hasWhPre ".wh..opq" = true := rfl
  rw [ht] at hbar
  simp at hbar

/-- Claim C2 (confirmed): in a directory whose children carry a whiteout
for the plain name bar (bar itself not whiteout-prefixed; the prefixed
child is then automatically distinct from the opaque marker), if no plain
child bar exists the merged listing has exactly one entry named bar, the
synthesized character-device whiteout; if a plain child bar exists the
listing has exactly one entry named bar, the regular entry of that child,
and no synthesized whiteout. -/
theorem c2_whiteout_synthesis (te : TOCEntry) (bar : String) (e eb : TOCEntry)
    (hnd : keysNodup te.children)
    (hbar : hasWhPre bar = false)
    (hw : (whAdd bar, e) ∈ te.children) :
    (lookupAssoc te.children bar = none →
      ((readDirAllEnts te).countP (fun d => d.name == bar) = 1 ∧
        Dirent.mk (inodeOfEnt e) DT.char bar ∈ readDirAllEnts te)) ∧
    (lookupAssoc te.children bar = some eb →
      ((readDirAllEnts te).countP (fun d => d.name == bar) = 1 ∧
        Dirent.mk (inodeOfEnt eb) (direntType eb) bar ∈ readDirAllEnts te)) := by
  have hwne : whAdd bar ≠ whOpqDir := whAdd_ne_opq hbar
  have hwk : whAdd bar ∈ te.children.map Prod.fst := List.mem_map_of_mem Prod.fst hw
  constructor
  · intro hno
    have hnok : bar ∉ te.children.map Prod.fst := lookupAssoc_none_key hno
    have hnon : bar ∉ rdNormalNames te := by
      intro hin
      rcases mem_rdNormalNames.mp hin with ⟨v, hv, _⟩
      exact hnok (List.mem_map_of_mem Prod.fst hv)
    constructor
    · rw [countBar_listing, countP_rdEnts, countP_rdSynth]
      have hz : te.children.countP (fun p => (p.1 == bar) && !(hasWhPre p.1)) = 0 := by
        rw [List.countP_eq_zero]
        intro p hp hb
        simp only [Bool.and_eq_true, beq_iff_eq] at hb
        exact hnok (hb.1 ▸ List.mem_map_of_mem Prod.fst hp)
      rw [hz]
      have hc : te.children.countP (fun p =>
          ((stripWh p.1 == bar) && !((rdNormalNames te).contains (stripWh p.1)))
            && (hasWhPre p.1 && !(p.1 == whOpqDir)))
          = te.children.countP (fun p => p.1 == whAdd bar) := by
        apply List.countP_congr
        intro p hp
        by_cases hwp : hasWhPre p.1 = true
        · by_cases hpe : p.1 = whAdd bar
          · have hsb : stripWh p.1 = bar := by rw [hpe, stripWh_whAdd]
            have hcn : ((rdNormalNames te).contains (stripWh p.1)) = false := by
              rw [hsb, ← Bool.not_eq_true]
              intro hcc
              exact hnon (List.elem_iff.mp hcc)
            have hob : (p.1 == whOpqDir) = false := by
              rw [beq_eq_false_iff_ne, hpe]
              exact hwne
            have hpb : (p.1 == whAdd bar) = true := beq_iff_eq.mpr hpe
            have hsbb : (stripWh p.1 == bar) = true := beq_iff_eq.mpr hsb
            rw [hsbb, hcn, hwp, hob, hpb]
            rfl
          · have hsb : (stripWh p.1 == bar) = false := by
              rw [beq_eq_false_iff_ne]
              intro hsbe
              apply hpe
              rw [← whAdd_stripWh hwp, hsbe]
            have hpb : (p.1 == whAdd bar) = false := by
              rw [beq_eq_false_iff_ne]
              exact hpe
            rw [hsb, hpb]
            rfl
        · rw [Bool.not_eq_true] at hwp
          have hpb : (p.1 == whAdd bar) = false := by
            rw [beq_eq_false_iff_ne]
            intro hpee
            rw [hpee, hasWhPre_whAdd] at hwp
            simp at hwp
          rw [hwp, hpb]
          simp
      rw [hc, countP_key_of_nodup hnd hwk]
    · apply mem_readDirAllEnts.mpr
      right
      apply mem_rdSynth.mpr
      refine ⟨(whAdd bar, e), hw, hasWhPre_whAdd bar, hwne, ?_, ?_⟩
      · rw [stripWh_whAdd]
        exact hnon
      · rw [stripWh_whAdd]
  · intro hsome
    have hmemb : (bar, eb) ∈ te.children := lookupAssoc_mem hsome
    have hbark : bar ∈ te.children.map Prod.fst := List.mem_map_of_mem Prod.fst hmemb
    have hbarn : bar ∈ rdNormalNames te := mem_rdNormalNames.mpr ⟨eb, hmemb, hbar⟩
    constructor
    · rw [countBar_listing, countP_rdEnts, countP_rdSynth]
      have hz : te.children.countP (fun p =>
          ((stripWh p.1 == bar) && !((rdNormalNames te).contains (stripWh p.1)))
            && (hasWhPre p.1 && !(p.1 == whOpqDir))) = 0 := by
        rw [List.countP_eq_zero]
        intro p hp hb
        simp only [Bool.and_eq_true, beq_iff_eq, Bool.not_eq_true'] at hb
        obtain ⟨⟨hsb, hcn⟩, _⟩ := hb
        rw [hsb] at hcn
        have hel : (rdNormalNames te).contains bar = true := List.elem_iff.mpr hbarn
        rw [hcn] at hel
        simp at hel
      rw [hz]
      have hc : te.children.countP (fun p => (p.1 == bar) && !(hasWhPre p.1))
          = te.children.countP (fun p => p.1 == bar) := by
        apply List.countP_congr
        intro p hp
        by_cases hpe : p.1 = bar
        · simp [hpe, hbar]
        · have : (p.1 == bar) = false := by rw [beq_eq_false_iff_ne]; exact hpe
          simp [this]
      rw [hc, countP_key_of_nodup hnd hbark]
    · apply mem_readDirAllEnts.mpr
      left
      exact mem_rdEnts.mpr ⟨(bar, eb), hmemb, hbar, rfl⟩

theorem c2_witness :
    ((readDirAllEnts c2TeA).countP (fun d => d.name == "bar") = 1 ∧
      Dirent.mk 21 DT.char "bar" ∈ readDirAllEnts c2TeA) ∧
    ((readDirAllEnts c2TeB).countP (fun d => d.name == "bar") = 1 ∧
      Dirent.mk 32 DT.file "bar" ∈ readDirAllEnts c2TeB) := by
  constructor
  · exact (c2_whiteout_synthesis c2TeA "bar" (TOCEntry.mk 21 "reg" [] [])
      (TOCEntry.mk 21 "reg" [] [])
      (by show (List.map Prod.fst c2TeA.children).Nodup; decide) rfl
      (List.mem_cons_self _ _)).1 rfl
  · exact (c2_whiteout_synthesis c2TeB "bar" (TOCEntry.mk 31 "reg" [] [])
      (TOCEntry.mk 32 "reg" [] [])
      (by show (List.map Prod.fst c2TeB.children).Nodup; decide) rfl
      (List.mem_cons_self _ _)).2 rfl

/-! ## Helper lemmas: section reads and the chunk cache -/

lemma sectionReadAt_length (data : List Nat) (off : Int) (size : Nat) :
    (sectionReadAt data off size).1.length = size := by
  unfold sectionReadAt
  split
  · simp
  · simp only [List.length_append, List.length_take, List.length_replicate, List.length_drop]
    omega

lemma sectionReadAt_full {data : List Nat} {off : Int} {size : Nat}
    (h0 : 0 ≤ off) (h1 : off.toNat + size ≤ data.length) (h2 : 1 ≤ size) :
    sectionReadAt data off size = ((data.drop off.toNat).take size, true) := by
  unfold sectionReadAt
  rw [if_neg (by omega)]
  have hmin : min size (data.length - off.toNat) = size := by omega
  rw [hmin, Nat.sub_self, List.replicate_zero, List.append_nil,
    decide_eq_true (by omega : size ≤ data.length - off.toNat)]

lemma chunkData_spec {data : List Nat} {st : HState} {off : Int} {size : Nat}
    (h2 : 1 ≤ size) (h0 : 0 ≤ off) (h1 : off.toNat + size ≤ data.length)
    (hcg : cacheGood data st) :
    ∃ st', chunkData data st off size = ((data.drop off.toNat).take size, true, st') ∧
      cacheGood data st' := by
  unfold chunkData
  by_cases hhit : st.lastChunkOff = off ∧ st.lastChunkSize = size
  · rw [if_pos hhit]
    rcases hcg with hz | heq
    · omega
    · rw [hhit.1, hhit.2, sectionReadAt_full h0 h1 h2] at heq
      have hbytes : (data.drop off.toNat).take size = st.lastChunk := congrArg Prod.fst heq
      refine ⟨st, ?_, Or.inr ?_⟩
      · rw [← hbytes]
      · rw [hhit.1, hhit.2, sectionReadAt_full h0 h1 h2, hbytes]
  · rw [if_neg hhit, sectionReadAt_full h0 h1 h2]
    exact ⟨HState.mk off size ((data.drop off.toNat).take size), rfl,
      Or.inr (by show sectionReadAt data off size = _; rw [sectionReadAt_full h0 h1 h2])⟩

lemma chunkData_eq_section {data : List Nat} {st : HState} {off : Int} {size : Nat}
    (h2 : 1 ≤ size) (hcg : cacheGood data st) :
    ∃ st', chunkData data st off size
        = ((sectionReadAt data off size).1, (sectionReadAt data off size).2, st') ∧
      cacheGood data st' := by
  unfold chunkData
  by_cases hhit : st.lastChunkOff = off ∧ st.lastChunkSize = size
  · rw [if_pos hhit]
    rcases hcg with hz | heq
    · omega
    · rw [hhit.1, hhit.2] at heq
      refine ⟨st, ?_, Or.inr (by rw [hhit.1, hhit.2]; exact heq)⟩
      rw [heq]
  · rw [if_neg hhit]
    by_cases hok : (sectionReadAt data off size).2 = true
    · rw [if_pos hok]
      refine ⟨HState.mk off size (sectionReadAt data off size).1, by rw [hok], Or.inr ?_⟩
      show sectionReadAt data off size = _
      rw [← hok]
    · rw [Bool.not_eq_true] at hok
      rw [if_neg (by rw [hok]; simp)]
      exact ⟨st, by rw [hok], hcg⟩

/-! ## The master lemma for the read loop -/

lemma readLoop_ok (data : List Nat) (getChunk : Int → Option Chunk) (reqOffset : Int)
    (reqSize : Nat)
    (hro : 0 ≤ reqOffset)
    (hcov : chunksCover getChunk)
    (hif : chunksInFile data getChunk) :
    ∀ fuel nr acc st, cacheGood data st →
      nr ≤ reqSize → reqSize - nr < fuel →
      acc.length = nr → acc = (data.drop reqOffset.toNat).take nr →
      ∃ bytes st',
        readLoop data getChunk reqOffset reqSize fuel nr acc st = ReadOut.ok bytes st' ∧
        cacheGood data st' ∧
        bytes.length ≤ reqSize ∧
        bytes = (data.drop reqOffset.toNat).take bytes.length ∧
        (bytes.length < reqSize → getChunk (reqOffset + (bytes.length : Int)) = none) := by
  intro fuel
  induction fuel with
  | zero =>
    intro nr acc st _ _ hf _ _
    omega
  | succ f ih =>
    intro nr acc st hcg hnr hf hlen hacc
    simp only [readLoop]
    by_cases hstop : reqSize ≤ nr
    · rw [if_pos hstop]
      refine ⟨acc, st, rfl, hcg, by omega, by rw [hlen]; exact hacc, ?_⟩
      intro hlt
      rw [hlen] at hlt
      omega
    · rw [if_neg hstop]
      cases hgc : getChunk (reqOffset + (nr : Int)) with
      | none =>
        refine ⟨acc, st, rfl, hcg, by omega, by rw [hlen]; exact hacc, ?_⟩
        intro _
        rw [hlen]
        exact hgc
      | some ce =>
        dsimp only
        obtain ⟨hcl, hcr⟩ := hcov _ _ hgc
        obtain ⟨hb0, hb1⟩ := hif _ _ hgc
        have hsz : 1 ≤ ce.chunkSize := by omega
        obtain ⟨st', hcd, hcg'⟩ := chunkData_spec hsz hb0 hb1 hcg
        rw [hcd]
        dsimp only
        have hchl : ((data.drop ce.chunkOffset.toNat).take ce.chunkSize).length
            = ce.chunkSize := by
          simp only [List.length_take, List.length_drop]
          omega
        rw [if_pos rfl, if_neg (by rw [hchl]; omega)]
        have hidx0 : (0 : Int) ≤ reqOffset + (nr : Int) - ce.chunkOffset := by omega
        have hidxlt : (reqOffset + (nr : Int) - ce.chunkOffset).toNat < ce.chunkSize := by
          omega
        have hposn : ce.chunkOffset.toNat + (reqOffset + (nr : Int) - ce.chunkOffset).toNat
            = reqOffset.toNat + nr := by omega
        have hdrop : ((data.drop ce.chunkOffset.toNat).take ce.chunkSize).drop
              (reqOffset + (nr : Int) - ce.chunkOffset).toNat
            = (data.drop (reqOffset.toNat + nr)).take
              (ce.chunkSize - (reqOffset + (nr : Int) - ce.chunkOffset).toNat) := by
          rw [List.drop_take, List.drop_drop, hposn]
        have hsrclen : (((data.drop ce.chunkOffset.toNat).take ce.chunkSize).drop
              (reqOffset + (nr : Int) - ce.chunkOffset).toNat).length
            = ce.chunkSize - (reqOffset + (nr : Int) - ce.chunkOffset).toNat := by
          rw [hdrop]
          simp only [List.length_take, List.length_drop]
          omega
        have hn1 : 1 ≤ min (reqSize - nr)
            (((data.drop ce.chunkOffset.toNat).take ce.chunkSize).drop
              (reqOffset + (nr : Int) - ce.chunkOffset).toNat).length := by
          rw [hsrclen]
          omega
        have hnle : min (reqSize - nr)
            (((data.drop ce.chunkOffset.toNat).take ce.chunkSize).drop
              (reqOffset + (nr : Int) - ce.chunkOffset).toNat).length
            ≤ (((data.drop ce.chunkOffset.toNat).take ce.chunkSize).drop
              (reqOffset + (nr : Int) - ce.chunkOffset).toNat).length := Nat.min_le_right _ _
        have htaken : (((data.drop ce.chunkOffset.toNat).take ce.chunkSize).drop
              (reqOffset + (nr : Int) - ce.chunkOffset).toNat).take
              (min (reqSize - nr)
                (((data.drop ce.chunkOffset.toNat).take ce.chunkSize).drop
                  (reqOffset + (nr : Int) - ce.chunkOffset).toNat).length)
            = (data.drop (reqOffset.toNat + nr)).take
              (min (reqSize - nr)
                (((data.drop ce.chunkOffset.toNat).take ce.chunkSize).drop
                  (reqOffset + (nr : Int) - ce.chunkOffset).toNat).length) := by
          rw [hdrop, List.take_take]
          congr 1
          simp only [List.length_take, List.length_drop]
          omega
        have hacc' : acc ++ (((data.drop ce.chunkOffset.toNat).take ce.chunkSize).drop
              (reqOffset + (nr : Int) - ce.chunkOffset).toNat).take
              (min (reqSize - nr)
                (((data.drop ce.chunkOffset.toNat).take ce.chunkSize).drop
                  (reqOffset + (nr : Int) - ce.chunkOffset).toNat).length)
            = (data.drop reqOffset.toNat).take
              (nr + min (reqSize - nr)
                (((data.drop ce.chunkOffset.toNat).take ce.chunkSize).drop
                  (reqOffset + (nr : Int) - ce.chunkOffset).toNat).length) := by
          rw [List.take_add, ← hacc, htaken, List.drop_drop]
        have hlen' : (acc ++ (((data.drop ce.chunkOffset.toNat).take ce.chunkSize).drop
              (reqOffset + (nr : Int) - ce.chunkOffset).toNat).take
              (min (reqSize - nr)
                (((data.drop ce.chunkOffset.toNat).take ce.chunkSize).drop
                  (reqOffset + (nr : Int) - ce.chunkOffset).toNat).length)).length
            = nr + min (reqSize - nr)
              (((data.drop ce.chunkOffset.toNat).take ce.chunkSize).drop
                (reqOffset + (nr : Int) - ce.chunkOffset).toNat).length := by
          rw [List.length_append, hlen, List.length_take]
          omega
        exact ih _ _ st' hcg' (by omega) (by omega) hlen' hacc'

/-! ## Cached versus uncached reads -/

lemma readLoop_bisim (data : List Nat) (getChunk : Int → Option Chunk) (reqOffset : Int)
    (reqSize : Nat) (hcov : chunksCover getChunk) :
    ∀ fuel nr acc st, cacheGood data st →
      (readLoop data getChunk reqOffset reqSize fuel nr acc st).toPure
        = readLoopNC data getChunk reqOffset reqSize fuel nr acc ∧
      (∀ b st', readLoop data getChunk reqOffset reqSize fuel nr acc st = ReadOut.ok b st' →
        cacheGood data st') ∧
      (∀ st', readLoop data getChunk reqOffset reqSize fuel nr acc st = ReadOut.err st' →
        cacheGood data st') ∧
      (reqSize - nr < fuel →
        readLoop data getChunk reqOffset reqSize fuel nr acc st ≠ ReadOut.fuel ∧
        readLoop data getChunk reqOffset reqSize fuel nr acc st ≠ ReadOut.panicked) := by
  intro fuel
  induction fuel with
  | zero =>
    intro nr acc st hcg
    refine ⟨rfl, ?_, ?_, ?_⟩
    · intro b st' h
      simp only [readLoop] at h
      exact absurd h (by simp)
    · intro st' h
      simp only [readLoop] at h
      exact absurd h (by simp)
    · intro h
      exact absurd h (by omega)
  | succ f ih =>
    intro nr acc st hcg
    simp only [readLoop, readLoopNC]
    by_cases hstop : reqSize ≤ nr
    · rw [if_pos hstop, if_pos hstop]
      refine ⟨rfl, ?_, ?_, ?_⟩
      · intro b st' h
        injection h with h1 h2
        subst h2
        exact hcg
      · intro st' h
        exact absurd h (by simp)
      · intro _
        exact ⟨by simp, by simp⟩
    · rw [if_neg hstop, if_neg hstop]
      cases hgc : getChunk (reqOffset + (nr : Int)) with
      | none =>
        dsimp only
        refine ⟨rfl, ?_, ?_, ?_⟩
        · intro b st' h
          injection h with h1 h2
          subst h2
          exact hcg
        · intro st' h
          exact absurd h (by simp)
        · intro _
          exact ⟨by simp, by simp⟩
      | some ce =>
        dsimp only
        obtain ⟨hcl, hcr⟩ := hcov _ _ hgc
        have hsz : 1 ≤ ce.chunkSize := by omega
        obtain ⟨st', hcd, hcg'⟩ := chunkData_eq_section hsz hcg
        rw [hcd]
        dsimp only
        by_cases hok : (sectionReadAt data ce.chunkOffset ce.chunkSize).2 = true
        · rw [if_pos hok, if_pos hok]
          have hchl : (sectionReadAt data ce.chunkOffset ce.chunkSize).1.length
              = ce.chunkSize := sectionReadAt_length data ce.chunkOffset ce.chunkSize
          rw [if_neg (by rw [hchl]; omega), if_neg (by rw [hchl]; omega)]
          have hsrc : ((sectionReadAt data ce.chunkOffset ce.chunkSize).1.drop
                (reqOffset + (nr : Int) - ce.chunkOffset).toNat).length
              = ce.chunkSize - (reqOffset + (nr : Int) - ce.chunkOffset).toNat := by
            rw [List.length_drop, hchl]
          obtain ⟨ih1, ih2, ih3, ih4⟩ := ih
            (nr + min (reqSize - nr)
              (((sectionReadAt data ce.chunkOffset ce.chunkSize).1.drop
                (reqOffset + (nr : Int) - ce.chunkOffset).toNat).length))
            (acc ++ ((sectionReadAt data ce.chunkOffset ce.chunkSize).1.drop
                (reqOffset + (nr : Int) - ce.chunkOffset).toNat).take
              (min (reqSize - nr)
                (((sectionReadAt data ce.chunkOffset ce.chunkSize).1.drop
                  (reqOffset + (nr : Int) - ce.chunkOffset).toNat).length)))
            st' hcg'
          exact ⟨ih1, ih2, ih3, fun hb => ih4 (by omega)⟩
        · rw [Bool.not_eq_true] at hok
          rw [if_neg (by rw [hok]; simp), if_neg (by rw [hok]; simp)]
          refine ⟨rfl, ?_, ?_, ?_⟩
          · intro b st'' h
            exact absurd h (by simp)
          · intro st'' h
            injection h with h1
            subst h1
            exact hcg'
          · intro _
            exact ⟨by simp, by simp⟩

/-! ## Claims C5, C6, C10 -/

/-- Claim C5 (confirmed): under the archive reader contract (chunks cover
the position they are returned for and lie in the file) and the cache
invariant, a read returns successfully; the returned bytes never exceed
the requested size, they are exactly the file bytes from the request
offset (no byte is silently skipped), a short result occurs only when no
chunk covers the next position, a read at or past end-of-file returns zero
bytes without error, and when every in-file position has a chunk the read
returns exactly the available bytes up to the requested size. -/
theorem c5_read_guarantee (data : List Nat) (getChunk : Int → Option Chunk)
    (reqOffset : Int) (reqSize : Nat) (st : HState)
    (hro : 0 ≤ reqOffset) (hcov : chunksCover getChunk) (hif : chunksInFile data getChunk)
    (hcg : cacheGood data st) :
    (nodeHandleRead data getChunk reqOffset reqSize st).isOk = true ∧
    (nodeHandleRead data getChunk reqOffset reqSize st).bytes.length ≤ reqSize ∧
    (nodeHandleRead data getChunk reqOffset reqSize st).bytes
      = (data.drop reqOffset.toNat).take
        (nodeHandleRead data getChunk reqOffset reqSize st).bytes.length ∧
    ((nodeHandleRead data getChunk reqOffset reqSize st).bytes.length < reqSize →
      getChunk (reqOffset
        + ((nodeHandleRead data getChunk reqOffset reqSize st).bytes.length : Int)) = none) ∧
    ((data.length : Int) ≤ reqOffset →
      (nodeHandleRead data getChunk reqOffset reqSize st).bytes = []) ∧
    ((∀ pos : Int, 0 ≤ pos → pos < (data.length : Int) → (getChunk pos).isSome = true) →
      (nodeHandleRead data getChunk reqOffset reqSize st).bytes.length
        = min reqSize (data.length - reqOffset.toNat)) := by
  obtain ⟨bytes, st', hrun, hcg', hble, hslice, hshort⟩ :=
    readLoop_ok data getChunk reqOffset reqSize hro hcov hif
      (reqSize + 1) 0 [] st hcg (by omega) (by omega) rfl (by simp)
  have hread : nodeHandleRead data getChunk reqOffset reqSize st = ReadOut.ok bytes st' :=
    hrun
  rw [hread]
  have hlenle : bytes.length ≤ data.length - reqOffset.toNat := by
    have := congrArg List.length hslice
    simp only [List.length_take, List.length_drop] at this
    omega
  refine ⟨rfl, hble, hslice, hshort, ?_, ?_⟩
  · intro hbeyond
    show bytes = []
    have hnil : data.drop reqOffset.toNat = [] := by
      apply List.drop_eq_nil_of_le
      omega
    rw [hslice, hnil, List.take_nil]
  · intro htot
    show bytes.length = _
    by_cases hlt : bytes.length < reqSize
    · have hnone := hshort hlt
      by_cases hend : reqOffset + (bytes.length : Int) < (data.length : Int)
      · have := htot (reqOffset + (bytes.length : Int)) (by omega) hend
        rw [hnone] at this
        simp at this
      · omega
    · omega

/-- Claim C10 (confirmed): under the precondition that every chunk
descriptor returned by the archive reader covers the queried position and
lies inside the file (so every fetch returns exactly chunk-size bytes),
and given the cache invariant, nodeHandleRead with its exact fuel bound of
request size plus one returns a successful response: every iteration of
the loop copies at least one byte, so the loop terminates within at most
request-size iterations. -/
theorem c10_read_termination (data : List Nat) (getChunk : Int → Option Chunk)
    (reqOffset : Int) (reqSize : Nat) (st : HState)
    (hro : 0 ≤ reqOffset) (hcov : chunksCover getChunk) (hif : chunksInFile data getChunk)
    (hcg : cacheGood data st) :
    (nodeHandleRead data getChunk reqOffset reqSize st).isOk = true := by
  obtain ⟨bytes, st', hrun, _⟩ :=
    readLoop_ok data getChunk reqOffset reqSize hro hcov hif
      (reqSize + 1) 0 [] st hcg (by omega) (by omega) rfl (by simp)
  have hread : nodeHandleRead data getChunk reqOffset reqSize st = ReadOut.ok bytes st' :=
    hrun
  rw [hread]
  rfl

/-- Claim C6 (confirmed): for every sequence of reads issued on one handle
starting from its initial empty cache, and under the covering contract of
the archive chunk lookup, the bytes returned for every request in the
sequence equal the bytes a direct uncached fetch of the same logical range
returns: the one-slot cache never yields stale or mismatched data, also
when repeated reads reuse the cached slot. -/
theorem c6_cache_transparency (data : List Nat) (getChunk : Int → Option Chunk)
    (reqs : List (Int × Nat)) (hcov : chunksCover getChunk) :
    runReads data getChunk reqs initHState
      = reqs.map (fun r => uncachedRead data getChunk r.1 r.2) := by
  have aux : ∀ rs : List (Int × Nat), ∀ st : HState, cacheGood data st →
      runReads data getChunk rs st
        = rs.map (fun r => uncachedRead data getChunk r.1 r.2) := by
    intro rs
    induction rs with
    | nil => intro st _; rfl
    | cons r rest ihr =>
      intro st hcg
      obtain ⟨hb1, hb2, hb3, hb4⟩ := readLoop_bisim data getChunk r.1 r.2 hcov
        (r.2 + 1) 0 [] st hcg
      have hnf := hb4 (by omega)
      unfold runReads
      cases hres : nodeHandleRead data getChunk r.1 r.2 st with
      | ok b st' =>
        dsimp only
        have hhd : uncachedRead data getChunk r.1 r.2 = ReadPure.ok b := by
          unfold uncachedRead
          rw [← hb1]
          show (nodeHandleRead data getChunk r.1 r.2 st).toPure = _
          rw [hres]
          rfl
        rw [List.map_cons, hhd, ihr st' (hb2 b st' hres)]
      | err st' =>
        dsimp only
        have hhd : uncachedRead data getChunk r.1 r.2 = ReadPure.err := by
          unfold uncachedRead
          rw [← hb1]
          show (nodeHandleRead data getChunk r.1 r.2 st).toPure = _
          rw [hres]
          rfl
        rw [List.map_cons, hhd, ihr st' (hb3 st' hres)]
      | fuel => exact absurd hres hnf.1
      | panicked => exact absurd hres hnf.2
  exact aux reqs initHState (Or.inl rfl)

lemma wGetChunk_cover : chunksCover wGetChunk := by
  intro pos ce h
  unfold wGetChunk at h
  split at h
  · next hc =>
    injection h with h
    subst h
    refine ⟨?_, ?_⟩
    · show (0 : Int) ≤ pos
      exact hc.1
    · show pos < (0 : Int) + (5 : Nat)
      have := hc.2
      omega
  · exact absurd h (by simp)

lemma wGetChunk_infile : chunksInFile wData wGetChunk := by
  intro pos ce h
  unfold wGetChunk at h
  split at h
  · injection h with h
    subst h
    constructor
    · show (0 : Int) ≤ 0
      omega
    · show (0 : Int).toNat + 5 ≤ wData.length
      show 0 + 5 ≤ 5
      omega
  · exact absurd h (by simp)

lemma wGetChunk_total :
    ∀ pos : Int, 0 ≤ pos → pos < (wData.length : Int) → (wGetChunk pos).isSome = true := by
  intro pos h0 h5
  unfold wGetChunk
  rw [if_pos ⟨h0, by revert h5; show pos < ((5 : Nat) : Int) → pos < 5; omega⟩]
  rfl

theorem c5_witness :
    (nodeHandleRead wData wGetChunk 0 10 initHState).isOk = true ∧
    (nodeHandleRead wData wGetChunk 0 10 initHState).bytes.length ≤ 10 ∧
    (nodeHandleRead wData wGetChunk 0 10 initHState).bytes
      = (wData.drop (0 : Int).toNat).take
        (nodeHandleRead wData wGetChunk 0 10 initHState).bytes.length ∧
    ((wData.length : Int) ≤ 7 →
      (nodeHandleRead wData wGetChunk 7 10 initHState).bytes = []) ∧
    (nodeHandleRead wData wGetChunk 0 10 initHState).bytes.length
      = min 10 (wData.length - (0 : Int).toNat) := by
  have h := c5_read_guarantee wData wGetChunk 0 10 initHState (by omega)
    wGetChunk_cover wGetChunk_infile (Or.inl rfl)
  have h7 := c5_read_guarantee wData wGetChunk 7 10 initHState (by omega)
    wGetChunk_cover wGetChunk_infile (Or.inl rfl)
  exact ⟨h.1, h.2.1, h.2.2.1, fun hb => h7.2.2.2.2.1 hb, h.2.2.2.2.2 wGetChunk_total⟩

theorem c10_witness :
    (nodeHandleRead wData wGetChunk 0 3 initHState).isOk = true :=
  c10_read_termination wData wGetChunk 0 3 initHState (by omega)
    wGetChunk_cover wGetChunk_infile (Or.inl rfl)

theorem c6_witness :
    runReads wData wGetChunk [(0, 3), (3, 4), (0, 3)] initHState
      = [uncachedRead wData wGetChunk 0 3, uncachedRead wData wGetChunk 3 4,
         uncachedRead wData wGetChunk 0 3] :=
  (c6_cache_transparency wData wGetChunk [(0, 3), (3, 4), (0, 3)] wGetChunk_cover).trans rfl
